import Mathlib

/-!
Verification of the dependency-graph construction engine of
`xray/commands/audit/sca/java/javautils.go`.

The Go source is shallowly embedded: pure helpers become Lean functions,
the two recursive tree populators are embedded with an explicit fuel
argument (the Go recursion has no structural measure; fuel-independence
past an explicit bound is proved separately), mutation of the shared
unique-dependency set becomes explicit state passing of a duplicate-free
list, and Go `map` values are embedded as association lists in insertion
order.  A recursive call that runs out of fuel yields `none`; every
`none`-free result coincides with the Go computation.
-/

/-- Constant `GavPackageTypeIdentifier = "gav://"` (javautils.go line 22). -/
def GavPackageTypeIdentifier : String := "gav://"

/-- A dependency record of the requested-by model: raw id plus the
`RequestedBy` outer sequence of ancestor chains (innermost first). -/
structure Dependency where
  id : String
  requestedBy : List (List String)
deriving DecidableEq, Repr

/-- A module of the requested-by model: id plus flat dependency list. -/
structure BuildModule where
  id : String
  dependencies : List Dependency
deriving DecidableEq, Repr

/-- `xrayUtils.GraphNode`: canonical id plus exclusively owned children.
The Go `Parent` back-reference is represented in the populator embeddings
by the explicit list of ancestor ids on the current path. -/
inductive GraphNode : Type where
  | node (id : String) (nodes : List GraphNode)
deriving Repr

def GraphNode.id : GraphNode → String
  | .node i _ => i

def GraphNode.nodes : GraphNode → List GraphNode
  | .node _ ns => ns

mutual

/-- All ids occurring in a tree (root first, then subtrees in order). -/
def treeIds : GraphNode → List String
  | .node i ns => i :: forestIds ns

/-- All ids occurring in a forest of trees. -/
def forestIds : List GraphNode → List String
  | [] => []
  | n :: ns => treeIds n ++ forestIds ns

end

/-- Ids of an optional tree (a dropped branch contributes nothing). -/
def optTreeIds : Option GraphNode → List String
  | none => []
  | some n => treeIds n

/-- All ids below the roots of a forest: the roots' own ids are skipped,
their subtrees' ids are collected. -/
def childForestIds : List GraphNode → List String
  | [] => []
  | n :: ns => forestIds n.nodes ++ childForestIds ns

/-- The `datastructures.Set[string]` collector: `Add` keeps the list
duplicate-free, appending only unseen elements. -/
def setAdd (s : List String) (x : String) : List String :=
  if x ∈ s then s else s ++ [x]

/-- The nested map `map[string]map[string]*buildinfo.Dependency` of
`dependencyMultimap` (javautils.go lines 159-178), as an association
list keyed by parent id whose values are child records keyed by id. -/
abbrev Multimap : Type := List (String × List Dependency)

/-- Overwrite-or-append insertion into the inner children map
(`dm.multimap[parent][child.Id] = child`). -/
def putInner (inner : List Dependency) (child : Dependency) : List Dependency :=
  if inner.any (fun d => d.id == child.id)
  then inner.map (fun d => if d.id == child.id then child else d)
  else inner ++ [child]

/-- `dependencyMultimap.putChild` (javautils.go lines 169-174). -/
def putChild (pm : Multimap) (parent : String) (child : Dependency) : Multimap :=
  if pm.any (fun e => e.1 == parent)
  then pm.map (fun e => if e.1 == parent then (e.1, putInner e.2 child) else e)
  else pm ++ [(parent, [child])]

/-- `dependencyMultimap.getChildren` (javautils.go lines 176-178): a Go
map read returns the zero value (no children) for an unknown parent. -/
def getChildren (pm : Multimap) (parent : String) : List Dependency :=
  match pm.find? (fun e => e.1 == parent) with
  | none => []
  | some e => e.2

/-- `isDirectDependency`'s loop over every chain (javautils.go lines
105-109).  Go evaluates `directParent[0]`, which panics on an empty
chain; the panic is embedded as `none`. -/
def isDirectLoop (moduleId : String) : List (List String) → Option Bool
  | [] => some false
  | [] :: _ => none
  | (h :: _) :: rest => if h = moduleId then some true else isDirectLoop moduleId rest

/-- `isDirectDependency` (javautils.go lines 100-112): true when there
are no chains at all or the first chain is empty, otherwise scan every
chain's first element for the module's own id. -/
def isDirectDependency (moduleId : String) (requestedBy : List (List String)) : Option Bool :=
  match requestedBy with
  | [] => some true
  | [] :: _ => some true
  | chains => isDirectLoop moduleId chains

/-- The edge-recording loop of `addModuleTree` (javautils.go lines
88-91): for an indirect dependency, record `parent[0] → dependency`
for every chain.  `parent[0]` panics on an empty chain (`none`). -/
def recordEdges (dep : Dependency) (pm : Multimap) : List (List String) → Option Multimap
  | [] => some pm
  | [] :: _ => none
  | (h :: _) :: rest => recordEdges dep (putChild pm (GavPackageTypeIdentifier ++ h) dep) rest

/-- Overwrite-or-append insertion into the `directDependencies` map
(`directDependencies[dependency.Id] = dependency`). -/
def assocInsert (l : List (String × Dependency)) (k : String) (v : Dependency) : List (String × Dependency) :=
  if l.any (fun e => e.1 == k)
  then l.map (fun e => if e.1 == k then (k, v) else e)
  else l ++ [(k, v)]

/-- The classification loop of `addModuleTree` (javautils.go lines
80-92): each record goes into the direct-dependency map when
`isDirectDependency` holds, and otherwise has all its requested-by
edges recorded in the multimap. -/
def classifyDependencies (moduleId : String) : List Dependency → List (String × Dependency) → Multimap → Option (List (String × Dependency) × Multimap)
  | [], direct, pm => some (direct, pm)
  | dep :: rest, direct, pm =>
    match isDirectDependency moduleId dep.requestedBy with
    | none => none
    | some true => classifyDependencies moduleId rest (assocInsert direct dep.id dep) pm
    | some false =>
      match recordEdges dep pm dep.requestedBy with
      | none => none
      | some pm' => classifyDependencies moduleId rest direct pm'

/-- `hasLoop` (javautils.go lines 130-137). -/
def hasLoop (idsAdded : List String) (idToAdd : String) : Bool :=
  idsAdded.any (fun id => id == idToAdd)

/-- The child loop of `populateTransitiveDependencies` (javautils.go
lines 125-127), abstracted over the recursive call `f` (which receives
a child's raw id and the current unique set): each child contributes
its produced node, if any, followed by its siblings' nodes. -/
def populateTransitiveList (f : String → List String → Option (Option GraphNode × List String)) :
    List String → List String → Option (List GraphNode × List String)
  | [], uds => some ([], uds)
  | c :: cs, uds =>
    match f c uds with
    | none => none
    | some (optN, uds1) =>
      match populateTransitiveList f cs uds1 with
      | none => none
      | some (rest, uds2) => some (optN.toList ++ rest, uds2)

/-- `populateTransitiveDependencies` (javautils.go lines 114-128) with
fuel.  Returns `none` when fuel runs out; otherwise
`some (optNode, uds')`, where `optNode` is the node produced for
`dependencyId` (`none` exactly when the loop guard dropped the branch)
and `uds'` the updated unique-dependency set. -/
def populateTransitiveDependencies : Nat → String → Multimap → List String → List String → Option (Option GraphNode × List String)
  | 0, _, _, _, _ => none
  | fuel + 1, dependencyId, pm, idsAdded, uds =>
    if hasLoop idsAdded dependencyId then some (none, uds)
    else
      let idsAdded' := idsAdded ++ [dependencyId]
      let nodeId := GavPackageTypeIdentifier ++ dependencyId
      let uds1 := setAdd uds nodeId
      match populateTransitiveList
          (fun childId u => populateTransitiveDependencies fuel childId pm idsAdded' u)
          ((getChildren pm nodeId).map (fun d => d.id)) uds1 with
      | none => none
      | some (children, uds2) => some (some (GraphNode.node nodeId children), uds2)

/-- The root loop of `addModuleTree` (javautils.go lines 94-96): expand
each direct dependency with a fresh empty ancestor list, appending the
produced subtrees to the module root. -/
def populateRoots (fuel : Nat) (pm : Multimap) : List String → List String → Option (List GraphNode × List String)
  | ids, uds => populateTransitiveList
      (fun d u => populateTransitiveDependencies fuel d pm [] u) ids uds

/-- `addModuleTree` (javautils.go lines 73-98) with fuel: create the
prefixed module root, add it to the set, classify dependencies, then
expand every direct dependency. -/
def addModuleTree (fuel : Nat) (module : BuildModule) (uds : List String) : Option (GraphNode × List String) :=
  let rootId := GavPackageTypeIdentifier ++ module.id
  let uds1 := setAdd uds rootId
  match classifyDependencies module.id module.dependencies [] [] with
  | none => none
  | some (direct, pm) =>
    match populateRoots fuel pm (direct.map (fun e => e.1)) uds1 with
    | none => none
    | some (children, uds2) => some (GraphNode.node rootId children, uds2)

/-- The module loop of `createGavDependencyTree` (javautils.go lines
64-70): one tree per module, sharing one unique-dependency set. -/
def createGavDependencyTree (fuel : Nat) : List BuildModule → List String → Option (List GraphNode × List String)
  | [], uds => some ([], uds)
  | m :: ms, uds =>
    match addModuleTree fuel m uds with
    | none => none
    | some (tree, uds1) =>
      match createGavDependencyTree fuel ms uds1 with
      | none => none
      | some (graph, uds2) => some (tree :: graph, uds2)

/-- `moduleDepTree` (javautils.go lines 181-188): root id plus the
`nodes` adjacency map, embedded as an association list. -/
structure ModuleDepTree where
  root : String
  nodes : List (String × List String)
deriving DecidableEq, Repr

/-- Go map read `moduleTree.Nodes[currNodeId].Children`: the zero value
(no children) when the key is absent. -/
def nodesLookup (nodes : List (String × List String)) (key : String) : List String :=
  match nodes.find? (fun e => e.1 == key) with
  | none => []
  | some e => e.2

/-- Modelled from the spec: `GraphNode.NodeHasLoop` lives in the external
client library (not under this repository's sources); per the spec it
walks the `Parent` chain upward from the current node and reports whether
the current node's own id already recurs among its ancestors. -/
def nodeHasLoop (ancestorIds : List String) (currId : String) : Bool :=
  ancestorIds.any (fun id => id == currId)

/-- The child loop of `populateDependencyTree` (javautils.go lines
214-224), abstracted over the recursive call `f` (which receives a
child's raw id and the current unique set and returns the child's
children): each child's prefixed id is added to the set before
recursing, and the child node is always created and appended. -/
def populateDependencyList (f : String → List String → Option (List GraphNode × List String)) :
    List String → List String → Option (List GraphNode × List String)
  | [], uds => some ([], uds)
  | childId :: rest, uds =>
    let childGav := GavPackageTypeIdentifier ++ childId
    let uds1 := setAdd uds childGav
    match f childId uds1 with
    | none => none
    | some (childChildren, uds2) =>
      match populateDependencyList f rest uds2 with
      | none => none
      | some (ns, uds3) => some (GraphNode.node childGav childChildren :: ns, uds3)

/-- `populateDependencyTree` (javautils.go lines 210-225) with fuel.
`currGav` is the current node's prefixed id and `ancestors` the prefixed
ids on its `Parent` chain; the result is the current node's children
sequence plus the updated unique-dependency set. -/
def populateDependencyTree : Nat → String → List String → String → ModuleDepTree → List String → Option (List GraphNode × List String)
  | 0, _, _, _, _, _ => none
  | fuel + 1, currGav, ancestors, currNodeId, tree, uds =>
    if nodeHasLoop ancestors currGav then some ([], uds)
    else populateDependencyList
        (fun childId u =>
          populateDependencyTree fuel (GavPackageTypeIdentifier ++ childId)
            (currGav :: ancestors) childId tree u)
        (nodesLookup tree.nodes currNodeId) uds

/-- The module loop of `getGraphFromDepTree` (javautils.go lines
197-206) over already-parsed module trees: one prefixed root per module;
only `populateDependencyTree` feeds the unique-dependency set (the root
id itself is never added to it). -/
def getGraphFromDepTreeModules (fuel : Nat) : List ModuleDepTree → List String → Option (List GraphNode × List String)
  | [], uds => some ([], uds)
  | t :: ts, uds =>
    let rootGav := GavPackageTypeIdentifier ++ t.root
    match populateDependencyTree fuel rootGav [] t.root t uds with
    | none => none
    | some (children, uds1) =>
      match getGraphFromDepTreeModules fuel ts uds1 with
      | none => none
      | some (graph, uds2) => some (GraphNode.node rootGav children :: graph, uds2)

/-- The raw ids of all child records stored anywhere in the multimap:
every id that can ever be passed to a recursive call of
`populateTransitiveDependencies`. -/
def transChildIds (pm : Multimap) : List String :=
  pm.flatMap (fun e => e.2.map (fun d => d.id))

/-- Fuel that provably suffices for `populateTransitiveDependencies`:
the number of multimap child ids not yet on the ancestor path, plus
two. -/
def transBound (pm : Multimap) (idsAdded : List String) (dependencyId : String) : Nat :=
  ((transChildIds pm).filter
    (fun x => x ∉ idsAdded ++ [dependencyId])).length + 2

/-- The prefixed ids of all children stored in a plugin tree's `nodes`
mapping: every id that can ever become the current node of a recursive
call of `populateDependencyTree`. -/
def depChildGavs (tree : ModuleDepTree) : List String :=
  tree.nodes.flatMap (fun e => e.2.map (fun c => GavPackageTypeIdentifier ++ c))

/-- Fuel that provably suffices for `populateDependencyTree`: the number
of children ids not yet on the `Parent` chain (current node included),
plus two. -/
def depBound (tree : ModuleDepTree) (currGav : String) (ancestors : List String) : Nat :=
  ((depChildGavs tree).filter
    (fun x => x ∉ currGav :: ancestors)).length + 2

/-- Go `unicode.IsSpace`, restricted to the code points Go treats as
white space ('\t', '\n', '\v', '\f', '\r', ' ', NEL, NBSP, and the
Unicode White_Space code points). -/
def goIsSpace (c : Char) : Bool :=
  c.toNat == 9 || c.toNat == 10 || c.toNat == 11 || c.toNat == 12 ||
  c.toNat == 13 || c.toNat == 32 || c.toNat == 0x85 || c.toNat == 0xA0 ||
  c.toNat == 0x1680 || (0x2000 ≤ c.toNat && c.toNat ≤ 0x200A) ||
  c.toNat == 0x2028 || c.toNat == 0x2029 || c.toNat == 0x202F ||
  c.toNat == 0x205F || c.toNat == 0x3000

/-- Go `strings.TrimSpace`: drop leading and trailing white space. -/
def goTrimSpace (s : String) : String :=
  String.mk (((s.toList.dropWhile goIsSpace).reverse.dropWhile goIsSpace).reverse)

/-- Splitting a character list at every occurrence of a separator:
`n` separators yield `n + 1` pieces; the empty list yields one empty
piece. -/
def splitCharList (sep : Char) : List Char → List (List Char)
  | [] => [[]]
  | c :: cs =>
    if c == sep then [] :: splitCharList sep cs
    else
      match splitCharList sep cs with
      | [] => [[c]]
      | r :: rs => (c :: r) :: rs

/-- Go `strings.Split(s, "\n")` (the separator is a single newline):
pieces between newline occurrences; the empty input yields `[""]`. -/
def splitLines (s : String) : List String :=
  (splitCharList '\n' s.toList).map String.mk

/-- The abort reasons of the output-file parser: a path that cannot be
read, or a file whose JSON does not decode. -/
inductive ParseError : Type where
  | readError (path : String)
  | decodeError (path : String)
deriving DecidableEq, Repr

/-- `parseDepTreeFile` (javautils.go lines 240-248), abstracted over the
external collaborators `os.ReadFile` (`readFile`, `none` = read failure)
and `json.Unmarshal` (`decode`, `none` = malformed JSON): the path is
trimmed again before reading, and the first failure aborts. -/
def parseDepTreeFile (readFile : String → Option String) (decode : String → Option ModuleDepTree) (path : String) : Except ParseError ModuleDepTree :=
  match readFile (goTrimSpace path) with
  | none => Except.error (ParseError.readError path)
  | some content =>
    match decode content with
    | none => Except.error (ParseError.decodeError path)
    | some m => Except.ok m

/-- The per-path loop of `parseDepTreeFiles` (javautils.go lines
230-236): parse each path in order, returning the first error with no
partial results. -/
def parseDepTreeLoop (readFile : String → Option String) (decode : String → Option ModuleDepTree) : List String → Except ParseError (List ModuleDepTree)
  | [] => Except.ok []
  | p :: ps =>
    match parseDepTreeFile readFile decode p with
    | Except.error e => Except.error e
    | Except.ok m =>
      match parseDepTreeLoop readFile decode ps with
      | Except.error e => Except.error e
      | Except.ok ms => Except.ok (m :: ms)

/-- `parseDepTreeFiles` (javautils.go lines 227-238): trim the whole
input, split on newlines, parse every path in sequence order. -/
def parseDepTreeFiles (readFile : String → Option String) (decode : String → Option ModuleDepTree) (input : String) : Except ParseError (List ModuleDepTree) :=
  parseDepTreeLoop readFile decode (splitLines (goTrimSpace input))


/-! ## Helper lemmas: output-file parser -/

theorem splitCharList_ne_nil (sep : Char) (l : List Char) : splitCharList sep l ≠ [] := by
  induction l with
  | nil => simp [splitCharList]
  | cons c cs ih =>
    simp only [splitCharList]
    split
    · simp
    · split
      · simp
      · simp

theorem splitLines_ne_nil (s : String) : splitLines s ≠ [] := by
  simp [splitLines]
  exact splitCharList_ne_nil '\n' s.toList

theorem parseDepTreeLoop_eq_mapM (readFile : String → Option String)
    (decode : String → Option ModuleDepTree) (ps : List String) :
    parseDepTreeLoop readFile decode ps = ps.mapM (parseDepTreeFile readFile decode) := by
  induction ps with
  | nil => rfl
  | cons p ps ih =>
    simp only [parseDepTreeLoop, List.mapM_cons, ih]
    cases parseDepTreeFile readFile decode p with
    | error e => rfl
    | ok m =>
      cases ps.mapM (parseDepTreeFile readFile decode) with
      | error e => rfl
      | ok ms => rfl

theorem parseDepTreeLoop_ok (readFile : String → Option String)
    (decode : String → Option ModuleDepTree) :
    ∀ (ps : List String) (mods : List ModuleDepTree),
      parseDepTreeLoop readFile decode ps = Except.ok mods →
      mods.length = ps.length ∧
      ∀ i (h1 : i < ps.length) (h2 : i < mods.length),
        parseDepTreeFile readFile decode (ps.get ⟨i, h1⟩) = Except.ok (mods.get ⟨i, h2⟩) := by
  intro ps
  induction ps with
  | nil =>
    intro mods h
    simp only [parseDepTreeLoop] at h
    cases h
    exact ⟨rfl, fun i h1 _ => absurd h1 (Nat.not_lt_zero i)⟩
  | cons p ps ih =>
    intro mods h
    simp only [parseDepTreeLoop] at h
    cases hp : parseDepTreeFile readFile decode p with
    | error e => rw [hp] at h; exact absurd h (by simp)
    | ok m =>
      rw [hp] at h
      cases hl : parseDepTreeLoop readFile decode ps with
      | error e => rw [hl] at h; exact absurd h (by simp)
      | ok ms =>
        rw [hl] at h
        cases h
        obtain ⟨hlen, hidx⟩ := ih ms hl
        refine ⟨by simp [hlen], ?_⟩
        intro i h1 h2
        cases i with
        | zero => simpa using hp
        | succ j =>
          simp only [List.get_cons_succ]
          exact hidx j (by simpa using h1) (by simpa using h2)

theorem parseDepTreeLoop_err_mem (readFile : String → Option String)
    (decode : String → Option ModuleDepTree) :
    ∀ (ps : List String) (p : String), p ∈ ps →
      (∀ m, parseDepTreeFile readFile decode p ≠ Except.ok m) →
      ∀ mods, parseDepTreeLoop readFile decode ps ≠ Except.ok mods := by
  intro ps
  induction ps with
  | nil => intro p hp; exact absurd hp (List.not_mem_nil p)
  | cons q ps ih =>
    intro p hp hbad mods h
    simp only [parseDepTreeLoop] at h
    cases hq : parseDepTreeFile readFile decode q with
    | error e => rw [hq] at h; exact absurd h (by simp)
    | ok m =>
      rw [hq] at h
      rcases List.mem_cons.mp hp with rfl | hmem
      · exact hbad m hq
      · cases hl : parseDepTreeLoop readFile decode ps with
        | error e => rw [hl] at h; exact absurd h (by simp)
        | ok ms => exact ih p hmem hbad ms hl

theorem parseDepTreeLoop_first_err (readFile : String → Option String)
    (decode : String → Option ModuleDepTree) :
    ∀ (ps : List String) (i : Nat) (h1 : i < ps.length) (e : ParseError),
      (∀ j (hj : j < ps.length), j < i →
        ∃ m, parseDepTreeFile readFile decode (ps.get ⟨j, hj⟩) = Except.ok m) →
      parseDepTreeFile readFile decode (ps.get ⟨i, h1⟩) = Except.error e →
      parseDepTreeLoop readFile decode ps = Except.error e := by
  intro ps
  induction ps with
  | nil => intro i h1; exact absurd h1 (Nat.not_lt_zero i)
  | cons q ps ih =>
    intro i h1 e hpre herr
    cases i with
    | zero =>
      simp only [List.get] at herr
      simp only [parseDepTreeLoop, herr]
    | succ j =>
      obtain ⟨m, hm⟩ := hpre 0 (Nat.succ_pos _) (Nat.succ_pos j)
      simp only [List.get] at hm herr
      simp only [parseDepTreeLoop, hm]
      rw [ih j (by simpa using h1) e ?_ herr]
      intro k hk hkj
      have := hpre (k + 1) (by simpa using hk) (by omega)
      simpa using this

/-- C6: the output-file parser splits on newlines, trims per path, and
reads and decodes each file in sequence order; it succeeds exactly when
every path succeeds, returning the decoded modules in file order, and
any read or decode failure makes the whole call return the first
failure's error with no module list. -/
theorem parse_batch_sequential (readFile : String → Option String)
    (decode : String → Option ModuleDepTree) (input : String) :
    parseDepTreeFiles readFile decode input =
        (splitLines (goTrimSpace input)).mapM (parseDepTreeFile readFile decode) ∧
    (∀ mods, parseDepTreeFiles readFile decode input = Except.ok mods →
      mods.length = (splitLines (goTrimSpace input)).length ∧
      ∀ i (h1 : i < (splitLines (goTrimSpace input)).length) (h2 : i < mods.length),
        parseDepTreeFile readFile decode ((splitLines (goTrimSpace input)).get ⟨i, h1⟩) =
          Except.ok (mods.get ⟨i, h2⟩)) ∧
    (∀ p ∈ splitLines (goTrimSpace input),
      (∀ m, parseDepTreeFile readFile decode p ≠ Except.ok m) →
      ∀ mods, parseDepTreeFiles readFile decode input ≠ Except.ok mods) ∧
    (∀ i (h1 : i < (splitLines (goTrimSpace input)).length) (e : ParseError),
      (∀ j (hj : j < (splitLines (goTrimSpace input)).length), j < i →
        ∃ m, parseDepTreeFile readFile decode ((splitLines (goTrimSpace input)).get ⟨j, hj⟩) =
          Except.ok m) →
      parseDepTreeFile readFile decode ((splitLines (goTrimSpace input)).get ⟨i, h1⟩) =
        Except.error e →
      parseDepTreeFiles readFile decode input = Except.error e) := by
  refine ⟨parseDepTreeLoop_eq_mapM readFile decode _, ?_, ?_, ?_⟩
  · intro mods h
    exact parseDepTreeLoop_ok readFile decode _ mods h
  · intro p hp hbad mods h
    exact parseDepTreeLoop_err_mem readFile decode _ p hp hbad mods h
  · intro i h1 e hpre herr
    exact parseDepTreeLoop_first_err readFile decode _ i h1 e hpre herr

/-- Witness for C6 at a concrete input: a one-path batch whose single
read fails aborts with that read error. -/
theorem parse_batch_sequential_witness :
    parseDepTreeFiles (fun _ => none) (fun _ => none) "p" =
      Except.error (ParseError.readError "p") :=
  (parse_batch_sequential (fun _ => none) (fun _ => none) "p").2.2.2 0 (by decide)
    (ParseError.readError "p")
    (fun j _ hj0 => absurd hj0 (Nat.not_lt_zero j)) rfl

/-- C10: the parser never yields zero modules without an error: a fully
white-space input leaves the single empty path, whose read fails (the
operating system has no file at the empty path), and any successful
batch contains at least one module. -/
theorem parse_empty_input_errors (readFile : String → Option String)
    (decode : String → Option ModuleDepTree) (input : String) :
    (goTrimSpace input = "" → readFile "" = none →
      parseDepTreeFiles readFile decode input = Except.error (ParseError.readError "")) ∧
    (∀ mods, parseDepTreeFiles readFile decode input = Except.ok mods → mods ≠ []) := by
  constructor
  · intro htrim hread
    simp only [parseDepTreeFiles, htrim]
    have hsplit : splitLines "" = [""] := rfl
    rw [hsplit]
    simp only [parseDepTreeLoop, parseDepTreeFile]
    have : goTrimSpace "" = "" := rfl
    rw [this, hread]
  · intro mods h
    simp only [parseDepTreeFiles] at h
    cases hs : splitLines (goTrimSpace input) with
    | nil => exact absurd hs (splitLines_ne_nil _)
    | cons p ps =>
      rw [hs] at h
      simp only [parseDepTreeLoop] at h
      cases hp : parseDepTreeFile readFile decode p with
      | error e => rw [hp] at h; exact absurd h (by simp)
      | ok m =>
        rw [hp] at h
        cases hl : parseDepTreeLoop readFile decode ps with
        | error e => rw [hl] at h; exact absurd h (by simp)
        | ok ms => rw [hl] at h; cases h; simp

/-- Witness for C10: the empty input errors with a read failure on the
empty path. -/
theorem parse_empty_input_errors_witness :
    parseDepTreeFiles (fun _ => none) (fun _ => none) "" =
      Except.error (ParseError.readError "") :=
  (parse_empty_input_errors (fun _ => none) (fun _ => none) "").1 rfl rfl

/-! ## Helper lemmas: plugin-tree populator basics -/

/-- C8: a plugin-tree input with a single root and an empty `nodes`
mapping yields exactly one graph node, the prefixed root with no
children; in general, expanding any node id absent from the `nodes`
mapping yields an empty children sequence and no error. -/
theorem plugin_missing_node_empty_children :
    (∀ (root : String) (uds : List String) (fuel : Nat), 1 ≤ fuel →
      getGraphFromDepTreeModules fuel [⟨root, []⟩] uds =
        some ([GraphNode.node (GavPackageTypeIdentifier ++ root) []], uds)) ∧
    (∀ (fuel : Nat) (currGav : String) (ancestors : List String) (currNodeId : String)
        (tree : ModuleDepTree) (uds : List String),
      tree.nodes.find? (fun e => e.1 == currNodeId) = none → 1 ≤ fuel →
      populateDependencyTree fuel currGav ancestors currNodeId tree uds = some ([], uds)) := by
  constructor
  · intro root uds fuel hfuel
    obtain ⟨k, rfl⟩ : ∃ k, fuel = k + 1 := ⟨fuel - 1, by omega⟩
    simp [getGraphFromDepTreeModules, populateDependencyTree, nodeHasLoop, nodesLookup,
      populateDependencyList]
  · intro fuel currGav ancestors currNodeId tree uds hfind hfuel
    obtain ⟨k, rfl⟩ : ∃ k, fuel = k + 1 := ⟨fuel - 1, by omega⟩
    simp only [populateDependencyTree, nodesLookup, hfind]
    split
    · rfl
    · rfl

/-- Witness for C8: a single-root module tree with no `nodes` entries. -/
theorem plugin_missing_node_empty_children_witness :
    getGraphFromDepTreeModules 1 [⟨"a", []⟩] [] =
      some ([GraphNode.node (GavPackageTypeIdentifier ++ "a") []], []) :=
  plugin_missing_node_empty_children.1 "a" [] 1 (by decide)

/-! ## Helper lemmas: direct-dependency classification -/

theorem isDirectLoop_true_iff (moduleId : String) :
    ∀ (chains : List (List String)), (∀ c ∈ chains, c ≠ []) →
      (isDirectLoop moduleId chains = some true ↔
        ∃ c ∈ chains, c.head? = some moduleId) := by
  intro chains
  induction chains with
  | nil => intro _; simp [isDirectLoop]
  | cons c cs ih =>
    intro hne
    cases c with
    | nil => exact absurd rfl (hne [] (List.mem_cons_self _ _))
    | cons h t =>
      simp only [isDirectLoop]
      by_cases hh : h = moduleId
      · subst hh
        simp
      · rw [if_neg hh, ih (fun c hc => hne c (List.mem_cons_of_mem _ hc))]
        constructor
        · rintro ⟨c, hc, hhead⟩
          exact ⟨c, List.mem_cons_of_mem _ hc, hhead⟩
        · rintro ⟨c, hc, hhead⟩
          rcases List.mem_cons.mp hc with rfl | hc2
          · simp at hhead
            exact absurd hhead hh
          · exact ⟨c, hc2, hhead⟩

theorem isDirectLoop_ne_none (moduleId : String) :
    ∀ (chains : List (List String)), (∀ c ∈ chains, c ≠ []) →
      isDirectLoop moduleId chains ≠ none := by
  intro chains
  induction chains with
  | nil => intro _; simp [isDirectLoop]
  | cons c cs ih =>
    intro hne
    cases c with
    | nil => exact absurd rfl (hne [] (List.mem_cons_self _ _))
    | cons h t =>
      simp only [isDirectLoop]
      by_cases hh : h = moduleId
      · simp [hh]
      · rw [if_neg hh]
        exact ih (fun c hc => hne c (List.mem_cons_of_mem _ hc))

theorem isDirectLoop_none (moduleId : String) :
    ∀ (chains : List (List String)),
      (∀ c ∈ chains, ∀ h t, c = h :: t → h ≠ moduleId) →
      [] ∈ chains →
      isDirectLoop moduleId chains = none := by
  intro chains
  induction chains with
  | nil => intro _ hmem; exact absurd hmem (List.not_mem_nil _)
  | cons c cs ih =>
    intro hnot hmem
    cases c with
    | nil => rfl
    | cons h t =>
      simp only [isDirectLoop]
      rw [if_neg (hnot (h :: t) (List.mem_cons_self _ _) h t rfl)]
      refine ih (fun c hc => hnot c (List.mem_cons_of_mem _ hc)) ?_
      rcases List.mem_cons.mp hmem with heq | hmem2
      · exact absurd heq.symm (by simp)
      · exact hmem2

theorem recordEdges_none (dep : Dependency) :
    ∀ (chains : List (List String)) (pm : Multimap), [] ∈ chains →
      recordEdges dep pm chains = none := by
  intro chains
  induction chains with
  | nil => intro pm hmem; exact absurd hmem (List.not_mem_nil _)
  | cons c cs ih =>
    intro pm hmem
    cases c with
    | nil => rfl
    | cons h t =>
      simp only [recordEdges]
      refine ih _ ?_
      rcases List.mem_cons.mp hmem with heq | hmem2
      · exact absurd heq.symm (by simp)
      · exact hmem2

theorem recordEdges_ne_none (dep : Dependency) :
    ∀ (chains : List (List String)) (pm : Multimap), (∀ c ∈ chains, c ≠ []) →
      recordEdges dep pm chains ≠ none := by
  intro chains
  induction chains with
  | nil => intro pm _; simp [recordEdges]
  | cons c cs ih =>
    intro pm hne
    cases c with
    | nil => exact absurd rfl (hne [] (List.mem_cons_self _ _))
    | cons h t =>
      simp only [recordEdges]
      exact ih _ (fun c hc => hne c (List.mem_cons_of_mem _ hc))

theorem isDirectDependency_ne_none (moduleId : String) (requestedBy : List (List String))
    (h : ∀ c ∈ requestedBy.tail, c ≠ []) :
    isDirectDependency moduleId requestedBy ≠ none := by
  match requestedBy with
  | [] => simp [isDirectDependency]
  | [] :: rest => simp [isDirectDependency]
  | (a :: b) :: rest =>
    simp only [isDirectDependency]
    refine isDirectLoop_ne_none moduleId _ ?_
    intro c hc
    rcases List.mem_cons.mp hc with rfl | hc2
    · simp
    · exact h c hc2

theorem assocInsert_mem (l : List (String × Dependency)) (k : String) (v : Dependency) :
    ∀ e ∈ assocInsert l k v, e ∈ l ∨ e = (k, v) := by
  intro e he
  unfold assocInsert at he
  split at he
  · obtain ⟨e', he', heq⟩ := List.mem_map.mp he
    by_cases hk : e'.1 == k
    · rw [if_pos hk] at heq
      exact Or.inr heq.symm
    · rw [if_neg hk] at heq
      exact Or.inl (heq ▸ he')
  · rcases List.mem_append.mp he with h1 | h2
    · exact Or.inl h1
    · exact Or.inr (List.mem_singleton.mp h2)

theorem assocInsert_key_self (l : List (String × Dependency)) (k : String) (v : Dependency) :
    k ∈ (assocInsert l k v).map (fun e => e.1) := by
  unfold assocInsert
  split
  · rename_i hany
    obtain ⟨e, he, hk⟩ := List.any_eq_true.mp hany
    refine List.mem_map.mpr ⟨(k, v), ?_, rfl⟩
    refine List.mem_map.mpr ⟨e, he, ?_⟩
    rw [if_pos hk]
  · simp

theorem assocInsert_key_mono (l : List (String × Dependency)) (k' : String) (v : Dependency)
    (k : String) (hk : k ∈ l.map (fun e => e.1)) :
    k ∈ (assocInsert l k' v).map (fun e => e.1) := by
  unfold assocInsert
  split
  · obtain ⟨e, he, rfl⟩ := List.mem_map.mp hk
    refine List.mem_map.mpr ?_
    by_cases hcase : e.1 == k'
    · exact ⟨(k', v), List.mem_map.mpr ⟨e, he, by rw [if_pos hcase]⟩, (eq_of_beq hcase).symm⟩
    · exact ⟨e, List.mem_map.mpr ⟨e, he, by rw [if_neg hcase]⟩, rfl⟩
  · rw [List.map_append]
    exact List.mem_append_left _ hk

theorem classifyDependencies_sound (moduleId : String) (allDeps : List Dependency) :
    ∀ (deps : List Dependency) (acc : List (String × Dependency)) (pm0 : Multimap)
      (direct : List (String × Dependency)) (pm : Multimap),
      classifyDependencies moduleId deps acc pm0 = some (direct, pm) →
      (∀ e ∈ acc, e.1 = e.2.id ∧ e.2 ∈ allDeps ∧
        isDirectDependency moduleId e.2.requestedBy = some true) →
      (∀ d ∈ deps, d ∈ allDeps) →
      ∀ e ∈ direct, e.1 = e.2.id ∧ e.2 ∈ allDeps ∧
        isDirectDependency moduleId e.2.requestedBy = some true := by
  intro deps
  induction deps with
  | nil =>
    intro acc pm0 direct pm h hacc _
    simp only [classifyDependencies] at h
    cases h
    exact hacc
  | cons dep rest ih =>
    intro acc pm0 direct pm h hacc hsub
    simp only [classifyDependencies] at h
    cases hdir : isDirectDependency moduleId dep.requestedBy with
    | none => rw [hdir] at h; exact absurd h (by simp)
    | some b =>
      rw [hdir] at h
      cases b with
      | true =>
        refine ih _ _ _ _ h ?_ (fun d hd => hsub d (List.mem_cons_of_mem _ hd))
        intro e he
        rcases assocInsert_mem acc dep.id dep e he with hmem | rfl
        · exact hacc e hmem
        · exact ⟨rfl, hsub dep (List.mem_cons_self _ _), hdir⟩
      | false =>
        cases hre : recordEdges dep pm0 dep.requestedBy with
        | none => rw [hre] at h; exact absurd h (by simp)
        | some pm1 =>
          rw [hre] at h
          exact ih _ _ _ _ h hacc (fun d hd => hsub d (List.mem_cons_of_mem _ hd))

theorem classifyDependencies_keys_mono (moduleId : String) :
    ∀ (deps : List Dependency) (acc : List (String × Dependency)) (pm0 : Multimap)
      (direct : List (String × Dependency)) (pm : Multimap),
      classifyDependencies moduleId deps acc pm0 = some (direct, pm) →
      ∀ k ∈ acc.map (fun e => e.1), k ∈ direct.map (fun e => e.1) := by
  intro deps
  induction deps with
  | nil =>
    intro acc pm0 direct pm h
    simp only [classifyDependencies] at h
    cases h
    exact fun k hk => hk
  | cons dep rest ih =>
    intro acc pm0 direct pm h k hk
    simp only [classifyDependencies] at h
    cases hdir : isDirectDependency moduleId dep.requestedBy with
    | none => rw [hdir] at h; exact absurd h (by simp)
    | some b =>
      rw [hdir] at h
      cases b with
      | true => exact ih _ _ _ _ h k (assocInsert_key_mono acc dep.id dep k hk)
      | false =>
        cases hre : recordEdges dep pm0 dep.requestedBy with
        | none => rw [hre] at h; exact absurd h (by simp)
        | some pm1 =>
          rw [hre] at h
          exact ih _ _ _ _ h k hk

theorem classifyDependencies_complete (moduleId : String) :
    ∀ (deps : List Dependency) (acc : List (String × Dependency)) (pm0 : Multimap)
      (direct : List (String × Dependency)) (pm : Multimap),
      classifyDependencies moduleId deps acc pm0 = some (direct, pm) →
      ∀ dep ∈ deps, isDirectDependency moduleId dep.requestedBy = some true →
        dep.id ∈ direct.map (fun e => e.1) := by
  intro deps
  induction deps with
  | nil => intro acc pm0 direct pm _ dep hd; exact absurd hd (List.not_mem_nil _)
  | cons d rest ih =>
    intro acc pm0 direct pm h dep hd hdirect
    simp only [classifyDependencies] at h
    cases hdir : isDirectDependency moduleId d.requestedBy with
    | none => rw [hdir] at h; exact absurd h (by simp)
    | some b =>
      rw [hdir] at h
      rcases List.mem_cons.mp hd with rfl | hd2
      · have hb : b = true := by
          rw [hdir] at hdirect
          exact Option.some.inj hdirect
        subst hb
        exact classifyDependencies_keys_mono moduleId _ _ _ _ _ h dep.id
          (assocInsert_key_self acc dep.id dep)
      · cases b with
        | true => exact ih _ _ _ _ h dep hd2 hdirect
        | false =>
          cases hre : recordEdges d pm0 d.requestedBy with
          | none => rw [hre] at h; exact absurd h (by simp)
          | some pm1 => rw [hre] at h; exact ih _ _ _ _ h dep hd2 hdirect

/-- C2 as stated is false: on `requestedBy = [["x"], [], ["m"]]` for
module `"m"`, a chain's first element equals the module id, yet
`isDirectDependency` never returns true — the loop reads the first
element of the empty second chain and panics (embedded as `none`). -/
theorem direct_dependency_spec_counterexample :
    ¬ (isDirectDependency "m" [["x"], [], ["m"]] = some true ↔
        ([["x"], [], ["m"]] : List (List String)) = [] ∨
        ([["x"], [], ["m"]] : List (List String)).head? = some [] ∨
        ∃ c ∈ ([["x"], [], ["m"]] : List (List String)), c.head? = some "m") := by
  decide

/-- C2 (amended with the precondition of C9, that every chain after the
first is non-empty): `isDirectDependency` returns true exactly when the
outer sequence is empty, or the first chain is empty, or some chain's
first element equals the module id; and the classification loop of
`addModuleTree` puts exactly the records satisfying `isDirectDependency`
into the direct-dependency map, recording everything else as indirect. -/
theorem direct_dependency_classification :
    (∀ (moduleId : String) (requestedBy : List (List String)),
      (∀ c ∈ requestedBy.tail, c ≠ []) →
      (isDirectDependency moduleId requestedBy = some true ↔
        requestedBy = [] ∨ requestedBy.head? = some [] ∨
          ∃ c ∈ requestedBy, c.head? = some moduleId)) ∧
    (∀ (moduleId : String) (deps : List Dependency)
        (direct : List (String × Dependency)) (pm : Multimap),
      classifyDependencies moduleId deps [] [] = some (direct, pm) →
      (∀ e ∈ direct, e.1 = e.2.id ∧ e.2 ∈ deps ∧
        isDirectDependency moduleId e.2.requestedBy = some true) ∧
      (∀ dep ∈ deps, isDirectDependency moduleId dep.requestedBy = some true →
        dep.id ∈ direct.map (fun e => e.1))) := by
  constructor
  · intro moduleId requestedBy htail
    match requestedBy with
    | [] => simp [isDirectDependency]
    | [] :: rest => simp [isDirectDependency]
    | (a :: b) :: rest =>
      simp only [isDirectDependency]
      rw [isDirectLoop_true_iff moduleId _ ?_]
      · constructor
        · intro h
          exact Or.inr (Or.inr h)
        · rintro (h | h | h)
          · exact absurd h (by simp)
          · simp at h
          · exact h
      · intro c hc
        rcases List.mem_cons.mp hc with rfl | hc2
        · simp
        · exact htail c hc2
  · intro moduleId deps direct pm h
    refine ⟨?_, ?_⟩
    · exact classifyDependencies_sound moduleId deps deps [] [] direct pm h
        (fun e he => absurd he (List.not_mem_nil e)) (fun d hd => hd)
    · exact classifyDependencies_complete moduleId deps [] [] direct pm h

/-- Witness for C2 at a concrete record: a chain whose first element is
the module id makes the dependency direct. -/
theorem direct_dependency_classification_witness :
    isDirectDependency "m" [["m"], ["x"]] = some true :=
  (direct_dependency_classification.1 "m" [["m"], ["x"]] (by decide)).mpr
    (Or.inr (Or.inr ⟨["m"], by decide, rfl⟩))

/-- C9: a record made indirect by its non-empty chains but carrying an
empty later chain drives both `isDirectDependency` and the
edge-recording loop of `addModuleTree` into an out-of-bounds read of the
chain's first element (embedded as `none`); with the precondition that
every chain after the first is non-empty, classification and edge
recording are total. -/
theorem empty_chain_out_of_bounds :
    (∀ (moduleId : String) (c0 : List String) (rest : List (List String)),
      c0 ≠ [] →
      (∀ c ∈ c0 :: rest, ∀ h t, c = h :: t → h ≠ moduleId) →
      [] ∈ rest →
      isDirectDependency moduleId (c0 :: rest) = none) ∧
    (∀ (dep : Dependency) (pm : Multimap) (chains : List (List String)),
      [] ∈ chains → recordEdges dep pm chains = none) ∧
    (∀ (moduleId : String) (requestedBy : List (List String)),
      (∀ c ∈ requestedBy.tail, c ≠ []) →
      isDirectDependency moduleId requestedBy ≠ none) ∧
    (∀ (moduleId : String) (deps : List Dependency) (acc : List (String × Dependency))
        (pm : Multimap),
      (∀ d ∈ deps, ∀ c ∈ d.requestedBy.tail, c ≠ []) →
      classifyDependencies moduleId deps acc pm ≠ none) := by
  refine ⟨?_, ?_, ?_, ?_⟩
  · intro moduleId c0 rest hne hnot hmem
    match c0, hne with
    | a :: b, _ =>
      simp only [isDirectDependency]
      exact isDirectLoop_none moduleId _ hnot (List.mem_cons_of_mem _ hmem)
  · intro dep pm chains hmem
    exact recordEdges_none dep chains pm hmem
  · intro moduleId requestedBy htail
    exact isDirectDependency_ne_none moduleId requestedBy htail
  · intro moduleId deps
    induction deps with
    | nil => intro acc pm _; simp [classifyDependencies]
    | cons dep rest ih =>
      intro acc pm hpre
      simp only [classifyDependencies]
      cases hdir : isDirectDependency moduleId dep.requestedBy with
      | none =>
        exact absurd hdir
          (isDirectDependency_ne_none moduleId dep.requestedBy
            (hpre dep (List.mem_cons_self _ _)))
      | some b =>
        cases b with
        | true => exact ih _ _ (fun d hd => hpre d (List.mem_cons_of_mem _ hd))
        | false =>
          cases hre : recordEdges dep pm dep.requestedBy with
          | none =>
            refine absurd hre (recordEdges_ne_none dep dep.requestedBy pm ?_)
            have hshape : ∃ a b rs, dep.requestedBy = (a :: b) :: rs := by
              cases hrb : dep.requestedBy with
              | nil => rw [hrb] at hdir; simp [isDirectDependency] at hdir
              | cons c0 rs =>
                cases c0 with
                | nil => rw [hrb] at hdir; simp [isDirectDependency] at hdir
                | cons a b => exact ⟨a, b, rs, rfl⟩
            obtain ⟨a, b, rs, hrb⟩ := hshape
            intro c hc
            rw [hrb] at hc
            rcases List.mem_cons.mp hc with rfl | hc2
            · simp
            · exact hpre dep (List.mem_cons_self _ _) c (by rw [hrb]; exact hc2)
          | some pm1 => exact ih _ _ (fun d hd => hpre d (List.mem_cons_of_mem _ hd))

/-- Witness for C9: module `"m"` with chains `[["x"], []]` — indirect by
the first chain, then the empty second chain is read out of bounds in
both loops; and a well-formed record classifies without panic. -/
theorem empty_chain_out_of_bounds_witness :
    isDirectDependency "m" [["x"], []] = none :=
  empty_chain_out_of_bounds.1 "m" ["x"] [[]] (by decide)
    (by
      intro c hc h t hct
      rcases List.mem_cons.mp hc with rfl | hc2
      · cases hct
        decide
      · rcases List.mem_cons.mp hc2 with rfl | h3
        · simp at hct
        · exact absurd h3 (List.not_mem_nil _))
    (by decide)

/-! ## Helper lemmas: unique-dependency set contents -/

theorem setAdd_mem (s : List String) (y x : String) :
    x ∈ setAdd s y ↔ x ∈ s ∨ x = y := by
  unfold setAdd
  split
  · rename_i hy
    constructor
    · exact Or.inl
    · rintro (hx | rfl)
      · exact hx
      · exact hy
  · simp

theorem forestIds_append (a b : List GraphNode) :
    forestIds (a ++ b) = forestIds a ++ forestIds b := by
  induction a with
  | nil => simp [forestIds]
  | cons n ns ih => simp [forestIds, ih]

theorem forestIds_toList (r : Option GraphNode) :
    forestIds r.toList = optTreeIds r := by
  cases r with
  | none => rfl
  | some n => simp [forestIds, optTreeIds, Option.toList]

theorem populateTransitiveList_mem
    (f : String → List String → Option (Option GraphNode × List String))
    (hf : ∀ d u r u', f d u = some (r, u') → ∀ x, x ∈ u' ↔ x ∈ u ∨ x ∈ optTreeIds r) :
    ∀ (cs : List String) (uds : List String) (ns : List GraphNode) (uds' : List String),
      populateTransitiveList f cs uds = some (ns, uds') →
      ∀ x, x ∈ uds' ↔ x ∈ uds ∨ x ∈ forestIds ns := by
  intro cs
  induction cs with
  | nil =>
    intro uds ns uds' h x
    simp only [populateTransitiveList] at h
    cases h
    simp [forestIds]
  | cons c cs ih =>
    intro uds ns uds' h x
    simp only [populateTransitiveList] at h
    split at h
    · exact absurd h (by simp)
    · rename_i optN u1 hfc
      split at h
      · exact absurd h (by simp)
      · rename_i rest u2 hrec
        cases h
        rw [ih _ _ _ hrec x, hf _ _ _ _ hfc x, forestIds_append,
          forestIds_toList]
        simp only [List.mem_append]
        tauto

theorem populateTransitiveDependencies_mem :
    ∀ (fuel : Nat) (d : String) (pm : Multimap) (ids uds : List String)
      (r : Option GraphNode) (uds' : List String),
      populateTransitiveDependencies fuel d pm ids uds = some (r, uds') →
      ∀ x, x ∈ uds' ↔ x ∈ uds ∨ x ∈ optTreeIds r := by
  intro fuel
  induction fuel with
  | zero =>
    intro d pm ids uds r uds' h
    exact absurd h (by simp [populateTransitiveDependencies])
  | succ k ih =>
    intro d pm ids uds r uds' h x
    simp only [populateTransitiveDependencies] at h
    split at h
    · cases h
      simp [optTreeIds]
    · split at h
      · exact absurd h (by simp)
      · rename_i children u2 hm
        cases h
        have hl := populateTransitiveList_mem _
          (fun d' u r' u' h' => ih d' pm (ids ++ [d]) u r' u' h') _ _ _ _ hm
        rw [hl x, setAdd_mem]
        simp only [optTreeIds, treeIds, List.mem_cons]
        tauto

theorem populateDependencyList_mem
    (f : String → List String → Option (List GraphNode × List String))
    (hf : ∀ cid u ns u', f cid u = some (ns, u') → ∀ x, x ∈ u' ↔ x ∈ u ∨ x ∈ forestIds ns) :
    ∀ (cs : List String) (uds : List String) (ns : List GraphNode) (uds' : List String),
      populateDependencyList f cs uds = some (ns, uds') →
      ∀ x, x ∈ uds' ↔ x ∈ uds ∨ x ∈ forestIds ns := by
  intro cs
  induction cs with
  | nil =>
    intro uds ns uds' h x
    simp only [populateDependencyList] at h
    cases h
    simp [forestIds]
  | cons childId rest ih =>
    intro uds ns uds' h x
    simp only [populateDependencyList] at h
    split at h
    · exact absurd h (by simp)
    · rename_i cc u2 hfc
      split at h
      · exact absurd h (by simp)
      · rename_i ns' u3 hrec
        cases h
        rw [ih _ _ _ hrec x, hf _ _ _ _ hfc x, setAdd_mem]
        simp only [forestIds, treeIds, List.mem_cons, List.mem_append]
        tauto

theorem populateDependencyTree_mem :
    ∀ (fuel : Nat) (currGav : String) (anc : List String) (currId : String)
      (tree : ModuleDepTree) (uds : List String) (ns : List GraphNode) (uds' : List String),
      populateDependencyTree fuel currGav anc currId tree uds = some (ns, uds') →
      ∀ x, x ∈ uds' ↔ x ∈ uds ∨ x ∈ forestIds ns := by
  intro fuel
  induction fuel with
  | zero =>
    intro currGav anc currId tree uds ns uds' h
    exact absurd h (by simp [populateDependencyTree])
  | succ k ih =>
    intro currGav anc currId tree uds ns uds' h x
    simp only [populateDependencyTree] at h
    split at h
    · cases h
      simp [forestIds]
    · exact populateDependencyList_mem _
        (fun cid u ns1 u' h' =>
          ih (GavPackageTypeIdentifier ++ cid) (currGav :: anc) cid tree u ns1 u' h')
        _ _ _ _ h x

theorem addModuleTree_mem (fuel : Nat) (m : BuildModule) (uds : List String)
    (tree : GraphNode) (uds' : List String)
    (h : addModuleTree fuel m uds = some (tree, uds')) :
    ∀ x, x ∈ uds' ↔ x ∈ uds ∨ x ∈ treeIds tree := by
  intro x
  simp only [addModuleTree] at h
  split at h
  · exact absurd h (by simp)
  · rename_i direct pm hcl
    split at h
    · exact absurd h (by simp)
    · rename_i children u2 hroots
      cases h
      unfold populateRoots at hroots
      have hl := populateTransitiveList_mem _
        (fun d' u r' u' h' => populateTransitiveDependencies_mem fuel d' pm [] u r' u' h')
        _ _ _ _ hroots
      rw [hl x, setAdd_mem]
      simp only [treeIds, List.mem_cons]
      tauto

theorem createGavDependencyTree_mem :
    ∀ (fuel : Nat) (ms : List BuildModule) (uds : List String)
      (g : List GraphNode) (uds' : List String),
      createGavDependencyTree fuel ms uds = some (g, uds') →
      ∀ x, x ∈ uds' ↔ x ∈ uds ∨ x ∈ forestIds g := by
  intro fuel ms
  induction ms with
  | nil =>
    intro uds g uds' h x
    simp only [createGavDependencyTree] at h
    cases h
    simp [forestIds]
  | cons m ms ih =>
    intro uds g uds' h x
    simp only [createGavDependencyTree] at h
    split at h
    · exact absurd h (by simp)
    · rename_i tree u1 hadd
      split at h
      · exact absurd h (by simp)
      · rename_i g' u2 hrec
        cases h
        rw [ih _ _ _ hrec x, addModuleTree_mem fuel m uds _ _ hadd x]
        simp only [forestIds, List.mem_append]
        tauto

theorem getGraphFromDepTreeModules_mem :
    ∀ (fuel : Nat) (ts : List ModuleDepTree) (uds : List String)
      (g : List GraphNode) (uds' : List String),
      getGraphFromDepTreeModules fuel ts uds = some (g, uds') →
      ∀ x, x ∈ uds' ↔ x ∈ uds ∨ x ∈ childForestIds g := by
  intro fuel ts
  induction ts with
  | nil =>
    intro uds g uds' h x
    simp only [getGraphFromDepTreeModules] at h
    cases h
    simp [childForestIds]
  | cons t ts ih =>
    intro uds g uds' h x
    simp only [getGraphFromDepTreeModules] at h
    split at h
    · exact absurd h (by simp)
    · rename_i children u1 hpop
      split at h
      · exact absurd h (by simp)
      · rename_i g' u2 hrec
        cases h
        rw [ih _ _ _ hrec x,
          populateDependencyTree_mem fuel _ [] t.root t uds _ _ hpop x]
        simp only [childForestIds, GraphNode.nodes, List.mem_append]
        tauto

/-- C1 as stated is false for the plugin-tree model:
`getGraphFromDepTree` never adds a module root's id to the
unique-dependency set, so the single-root input `{root: "a", nodes: {}}`
produces a graph containing `"gav://a"` while the returned set is
empty. -/
theorem unique_set_counterexample :
    getGraphFromDepTreeModules 1 [⟨"a", []⟩] [] =
      some ([GraphNode.node (GavPackageTypeIdentifier ++ "a") []], []) ∧
    (GavPackageTypeIdentifier ++ "a") ∈
      forestIds [GraphNode.node (GavPackageTypeIdentifier ++ "a") []] ∧
    (GavPackageTypeIdentifier ++ "a") ∉ ([] : List String) :=
  ⟨rfl, by simp [forestIds, treeIds], by simp⟩

/-- C1 (amended): for the requested-by model the unique-dependency set
equals precisely the set of distinct prefixed ids occurring anywhere in
the produced graph, module roots included; for the plugin-tree model it
equals precisely the ids of the non-root nodes — a module root id is
present only when it also occurs as some node's child. -/
theorem unique_set_matches_graph :
    (∀ (fuel : Nat) (ms : List BuildModule) (g : List GraphNode) (uds : List String),
      createGavDependencyTree fuel ms [] = some (g, uds) →
      ∀ x, x ∈ uds ↔ x ∈ forestIds g) ∧
    (∀ (fuel : Nat) (ts : List ModuleDepTree) (g : List GraphNode) (uds : List String),
      getGraphFromDepTreeModules fuel ts [] = some (g, uds) →
      ∀ x, x ∈ uds ↔ x ∈ childForestIds g) := by
  constructor
  · intro fuel ms g uds h x
    rw [createGavDependencyTree_mem fuel ms [] g uds h x]
    simp
  · intro fuel ts g uds h x
    rw [getGraphFromDepTreeModules_mem fuel ts [] g uds h x]
    simp

/-- Witness for C1 at a concrete one-module input of the requested-by
model: the set contains the root id exactly as the graph does. -/
theorem unique_set_matches_graph_witness :
    (GavPackageTypeIdentifier ++ "m") ∈ [GavPackageTypeIdentifier ++ "m"] ↔
      (GavPackageTypeIdentifier ++ "m") ∈
        forestIds [GraphNode.node (GavPackageTypeIdentifier ++ "m") []] :=
  unique_set_matches_graph.1 2 [⟨"m", []⟩]
    [GraphNode.node (GavPackageTypeIdentifier ++ "m") []]
    [GavPackageTypeIdentifier ++ "m"] rfl (GavPackageTypeIdentifier ++ "m")

/-! ## Helper lemmas: every produced id carries the scheme marker -/

theorem populateTransitiveList_gav
    (f : String → List String → Option (Option GraphNode × List String))
    (hf : ∀ d u r u', f d u = some (r, u') →
      ∀ x ∈ optTreeIds r, ∃ raw, x = GavPackageTypeIdentifier ++ raw) :
    ∀ (cs : List String) (uds : List String) (ns : List GraphNode) (uds' : List String),
      populateTransitiveList f cs uds = some (ns, uds') →
      ∀ x ∈ forestIds ns, ∃ raw, x = GavPackageTypeIdentifier ++ raw := by
  intro cs
  induction cs with
  | nil =>
    intro uds ns uds' h
    simp only [populateTransitiveList] at h
    cases h
    simp [forestIds]
  | cons c cs ih =>
    intro uds ns uds' h x hx
    simp only [populateTransitiveList] at h
    split at h
    · exact absurd h (by simp)
    · rename_i optN u1 hfc
      split at h
      · exact absurd h (by simp)
      · rename_i rest u2 hrec
        cases h
        rw [forestIds_append, forestIds_toList] at hx
        rcases List.mem_append.mp hx with h1 | h2
        · exact hf _ _ _ _ hfc x h1
        · exact ih _ _ _ hrec x h2

theorem populateTransitiveDependencies_gav :
    ∀ (fuel : Nat) (d : String) (pm : Multimap) (ids uds : List String)
      (r : Option GraphNode) (uds' : List String),
      populateTransitiveDependencies fuel d pm ids uds = some (r, uds') →
      ∀ x ∈ optTreeIds r, ∃ raw, x = GavPackageTypeIdentifier ++ raw := by
  intro fuel
  induction fuel with
  | zero =>
    intro d pm ids uds r uds' h
    exact absurd h (by simp [populateTransitiveDependencies])
  | succ k ih =>
    intro d pm ids uds r uds' h x hx
    simp only [populateTransitiveDependencies] at h
    split at h
    · cases h
      simp [optTreeIds] at hx
    · split at h
      · exact absurd h (by simp)
      · rename_i children u2 hm
        cases h
        simp only [optTreeIds, treeIds, List.mem_cons] at hx
        rcases hx with rfl | hx2
        · exact ⟨d, rfl⟩
        · exact populateTransitiveList_gav _
            (fun d' u r' u' h' => ih d' pm (ids ++ [d]) u r' u' h') _ _ _ _ hm x hx2

theorem populateDependencyList_gav
    (f : String → List String → Option (List GraphNode × List String))
    (hf : ∀ cid u ns u', f cid u = some (ns, u') →
      ∀ x ∈ forestIds ns, ∃ raw, x = GavPackageTypeIdentifier ++ raw) :
    ∀ (cs : List String) (uds : List String) (ns : List GraphNode) (uds' : List String),
      populateDependencyList f cs uds = some (ns, uds') →
      ∀ x ∈ forestIds ns, ∃ raw, x = GavPackageTypeIdentifier ++ raw := by
  intro cs
  induction cs with
  | nil =>
    intro uds ns uds' h
    simp only [populateDependencyList] at h
    cases h
    simp [forestIds]
  | cons childId rest ih =>
    intro uds ns uds' h x hx
    simp only [populateDependencyList] at h
    split at h
    · exact absurd h (by simp)
    · rename_i cc u2 hfc
      split at h
      · exact absurd h (by simp)
      · rename_i ns' u3 hrec
        cases h
        simp only [forestIds, treeIds, List.mem_cons, List.mem_append] at hx
        rcases hx with (rfl | hx2) | hx3
        · exact ⟨childId, rfl⟩
        · exact hf _ _ _ _ hfc x hx2
        · exact ih _ _ _ hrec x hx3

theorem populateDependencyTree_gav :
    ∀ (fuel : Nat) (currGav : String) (anc : List String) (currId : String)
      (tree : ModuleDepTree) (uds : List String) (ns : List GraphNode) (uds' : List String),
      populateDependencyTree fuel currGav anc currId tree uds = some (ns, uds') →
      ∀ x ∈ forestIds ns, ∃ raw, x = GavPackageTypeIdentifier ++ raw := by
  intro fuel
  induction fuel with
  | zero =>
    intro currGav anc currId tree uds ns uds' h
    exact absurd h (by simp [populateDependencyTree])
  | succ k ih =>
    intro currGav anc currId tree uds ns uds' h x hx
    simp only [populateDependencyTree] at h
    split at h
    · cases h
      simp [forestIds] at hx
    · exact populateDependencyList_gav _
        (fun cid u ns1 u' h' =>
          ih (GavPackageTypeIdentifier ++ cid) (currGav :: anc) cid tree u ns1 u' h')
        _ _ _ _ h x hx

/-- C7: every id of every node in the graphs produced by both models —
module roots, direct children and transitive children alike — is the
constant `"gav://"` followed by the raw coordinate. -/
theorem all_graph_ids_have_gav_marker :
    (∀ (fuel : Nat) (ms : List BuildModule) (uds0 : List String)
        (g : List GraphNode) (uds : List String),
      createGavDependencyTree fuel ms uds0 = some (g, uds) →
      ∀ x ∈ forestIds g, ∃ raw, x = GavPackageTypeIdentifier ++ raw) ∧
    (∀ (fuel : Nat) (ts : List ModuleDepTree) (uds0 : List String)
        (g : List GraphNode) (uds : List String),
      getGraphFromDepTreeModules fuel ts uds0 = some (g, uds) →
      ∀ x ∈ forestIds g, ∃ raw, x = GavPackageTypeIdentifier ++ raw) := by
  constructor
  · intro fuel ms
    induction ms with
    | nil =>
      intro uds0 g uds h
      simp only [createGavDependencyTree] at h
      cases h
      simp [forestIds]
    | cons m ms ih =>
      intro uds0 g uds h x hx
      simp only [createGavDependencyTree] at h
      split at h
      · exact absurd h (by simp)
      · rename_i tree u1 hadd
        split at h
        · exact absurd h (by simp)
        · rename_i g' u2 hrec
          cases h
          simp only [forestIds, List.mem_append] at hx
          rcases hx with hx1 | hx2
          · simp only [addModuleTree] at hadd
            split at hadd
            · exact absurd hadd (by simp)
            · rename_i direct pm hcl
              split at hadd
              · exact absurd hadd (by simp)
              · rename_i children uu hroots
                cases hadd
                simp only [treeIds, List.mem_cons] at hx1
                rcases hx1 with rfl | hx3
                · exact ⟨m.id, rfl⟩
                · exact populateTransitiveList_gav _
                    (fun d' u r' u' h' =>
                      populateTransitiveDependencies_gav fuel d' pm [] u r' u' h')
                    _ _ _ _ hroots x hx3
          · exact ih _ _ _ hrec x hx2
  · intro fuel ts
    induction ts with
    | nil =>
      intro uds0 g uds h
      simp only [getGraphFromDepTreeModules] at h
      cases h
      simp [forestIds]
    | cons t ts ih =>
      intro uds0 g uds h x hx
      simp only [getGraphFromDepTreeModules] at h
      split at h
      · exact absurd h (by simp)
      · rename_i children u1 hpop
        split at h
        · exact absurd h (by simp)
        · rename_i g' u2 hrec
          cases h
          simp only [forestIds, treeIds, List.mem_cons, List.mem_append] at hx
          rcases hx with (rfl | hx2) | hx3
          · exact ⟨t.root, rfl⟩
          · exact populateDependencyTree_gav fuel _ [] t.root t uds0 _ _ hpop x hx2
          · exact ih _ _ _ hrec x hx3

/-- Witness for C7 at a concrete one-module input: the produced root id
decomposes as the marker followed by the raw coordinate. -/
theorem all_graph_ids_have_gav_marker_witness :
    ∃ raw, GavPackageTypeIdentifier ++ "m" = GavPackageTypeIdentifier ++ raw :=
  all_graph_ids_have_gav_marker.1 2 [⟨"m", []⟩] []
    [GraphNode.node (GavPackageTypeIdentifier ++ "m") []]
    [GavPackageTypeIdentifier ++ "m"] rfl (GavPackageTypeIdentifier ++ "m")
    (by simp [forestIds, treeIds])

/-! ## Helper lemmas: cycle guards -/

theorem populateTransitiveDependencies_loop (fuel : Nat) (d : String) (pm : Multimap)
    (ids uds : List String) (h : hasLoop ids d = true) :
    populateTransitiveDependencies (fuel + 1) d pm ids uds = some (none, uds) := by
  simp [populateTransitiveDependencies, h]

theorem populateTransitiveList_skip (fuel : Nat) (c : String) (cs : List String)
    (pm : Multimap) (ids uds : List String) (h : hasLoop ids c = true) :
    populateTransitiveList
        (fun d u => populateTransitiveDependencies (fuel + 1) d pm ids u) (c :: cs) uds =
      populateTransitiveList
        (fun d u => populateTransitiveDependencies (fuel + 1) d pm ids u) cs uds := by
  cases hrec : populateTransitiveList
      (fun d u => populateTransitiveDependencies (fuel + 1) d pm ids u) cs uds with
  | none =>
    simp [populateTransitiveList,
      populateTransitiveDependencies_loop fuel c pm ids uds h, hrec]
  | some q =>
    obtain ⟨rest, u2⟩ := q
    simp [populateTransitiveList,
      populateTransitiveDependencies_loop fuel c pm ids uds h, hrec, Option.toList]

theorem populateTransitiveDependencies_creates (fuel : Nat) (d : String) (pm : Multimap)
    (ids uds : List String) (r : Option GraphNode) (uds' : List String)
    (hguard : hasLoop ids d = false)
    (h : populateTransitiveDependencies fuel d pm ids uds = some (r, uds')) :
    ∃ n, r = some n ∧ GraphNode.id n = GavPackageTypeIdentifier ++ d ∧
      (GavPackageTypeIdentifier ++ d) ∈ uds' := by
  cases fuel with
  | zero => exact absurd h (by simp [populateTransitiveDependencies])
  | succ k =>
    simp only [populateTransitiveDependencies] at h
    rw [hguard] at h
    simp only [Bool.false_eq_true, if_false] at h
    split at h
    · exact absurd h (by simp)
    · rename_i children u2 hm
      cases h
      refine ⟨GraphNode.node (GavPackageTypeIdentifier ++ d) children, rfl, rfl, ?_⟩
      have hl := populateTransitiveList_mem _
        (fun d' u r' u' h' =>
          populateTransitiveDependencies_mem k d' pm (ids ++ [d]) u r' u' h') _ _ _ _ hm
      exact (hl _).mpr (Or.inl ((setAdd_mem uds _ _).mpr (Or.inr rfl)))

theorem populateTransitiveList_head (fuel : Nat) (c : String) (cs : List String)
    (pm : Multimap) (ids uds : List String) (ns : List GraphNode) (uds' : List String)
    (hguard : hasLoop ids c = false)
    (h : populateTransitiveList
        (fun d u => populateTransitiveDependencies fuel d pm ids u) (c :: cs) uds =
      some (ns, uds')) :
    ∃ n rest, ns = n :: rest ∧ GraphNode.id n = GavPackageTypeIdentifier ++ c := by
  simp only [populateTransitiveList] at h
  split at h
  · exact absurd h (by simp)
  · rename_i optN u1 hfc
    split at h
    · exact absurd h (by simp)
    · rename_i rest u2 hrec
      cases h
      obtain ⟨n, rfl, hid, _⟩ :=
        populateTransitiveDependencies_creates fuel c pm ids uds optN u1 hguard hfc
      exact ⟨n, rest, rfl, hid⟩

/-- C4: the requested-by populator carries the ancestor list of raw ids
for the current path: a candidate child already on that path yields no
node, leaves the set untouched and is simply omitted by the caller,
while a candidate off the path always yields a node whose prefixed id
is added to the set and handed to the parent as the next child. -/
theorem ancestor_list_guard_requested_by :
    (∀ (fuel : Nat) (d : String) (pm : Multimap) (ids uds : List String),
      hasLoop ids d = true →
      populateTransitiveDependencies (fuel + 1) d pm ids uds = some (none, uds)) ∧
    (∀ (fuel : Nat) (c : String) (cs : List String) (pm : Multimap) (ids uds : List String),
      hasLoop ids c = true →
      populateTransitiveList
          (fun d u => populateTransitiveDependencies (fuel + 1) d pm ids u) (c :: cs) uds =
        populateTransitiveList
          (fun d u => populateTransitiveDependencies (fuel + 1) d pm ids u) cs uds) ∧
    (∀ (fuel : Nat) (d : String) (pm : Multimap) (ids uds : List String)
        (r : Option GraphNode) (uds' : List String),
      hasLoop ids d = false →
      populateTransitiveDependencies fuel d pm ids uds = some (r, uds') →
      ∃ n, r = some n ∧ GraphNode.id n = GavPackageTypeIdentifier ++ d ∧
        (GavPackageTypeIdentifier ++ d) ∈ uds') ∧
    (∀ (fuel : Nat) (c : String) (cs : List String) (pm : Multimap) (ids uds : List String)
        (ns : List GraphNode) (uds' : List String),
      hasLoop ids c = false →
      populateTransitiveList
          (fun d u => populateTransitiveDependencies fuel d pm ids u) (c :: cs) uds =
        some (ns, uds') →
      ∃ n rest, ns = n :: rest ∧ GraphNode.id n = GavPackageTypeIdentifier ++ c) :=
  ⟨populateTransitiveDependencies_loop,
   populateTransitiveList_skip,
   populateTransitiveDependencies_creates,
   populateTransitiveList_head⟩

/-- Witness for C4: with `"a"` already on the ancestor path, expanding
`"a"` again creates no node and leaves the set unchanged. -/
theorem ancestor_list_guard_requested_by_witness :
    populateTransitiveDependencies 1 "a" [] ["a"] [] = some (none, []) :=
  ancestor_list_guard_requested_by.1 0 "a" [] ["a"] [] (by decide)

theorem populateDependencyList_mem_mono
    (f : String → List String → Option (List GraphNode × List String))
    (hmono : ∀ cid u ns u', f cid u = some (ns, u') → ∀ x, x ∈ u → x ∈ u') :
    ∀ (cs : List String) (uds : List String) (ns : List GraphNode) (uds' : List String),
      populateDependencyList f cs uds = some (ns, uds') →
      ∀ x, x ∈ uds → x ∈ uds' := by
  intro cs
  induction cs with
  | nil =>
    intro uds ns uds' h x hx
    simp only [populateDependencyList] at h
    cases h
    exact hx
  | cons childId rest ih =>
    intro uds ns uds' h x hx
    simp only [populateDependencyList] at h
    split at h
    · exact absurd h (by simp)
    · rename_i cc u2 hfc
      split at h
      · exact absurd h (by simp)
      · rename_i ns' u3 hrec
        cases h
        exact ih _ _ _ hrec x
          (hmono childId _ cc u2 hfc x ((setAdd_mem uds _ x).mpr (Or.inl hx)))

theorem populateDependencyList_shape
    (f : String → List String → Option (List GraphNode × List String))
    (hmono : ∀ cid u ns u', f cid u = some (ns, u') → ∀ x, x ∈ u → x ∈ u') :
    ∀ (cs : List String) (uds : List String) (ns : List GraphNode) (uds' : List String),
      populateDependencyList f cs uds = some (ns, uds') →
      List.map GraphNode.id ns = cs.map (fun c => GavPackageTypeIdentifier ++ c) ∧
      ∀ c ∈ cs, (GavPackageTypeIdentifier ++ c) ∈ uds' := by
  intro cs
  induction cs with
  | nil =>
    intro uds ns uds' h
    simp only [populateDependencyList] at h
    cases h
    exact ⟨rfl, fun c hc => absurd hc (List.not_mem_nil c)⟩
  | cons childId rest ih =>
    intro uds ns uds' h
    simp only [populateDependencyList] at h
    split at h
    · exact absurd h (by simp)
    · rename_i cc u2 hfc
      split at h
      · exact absurd h (by simp)
      · rename_i ns' u3 hrec
        cases h
        obtain ⟨hmap, hmem⟩ := ih _ _ _ hrec
        refine ⟨?_, ?_⟩
        · simp [GraphNode.id, hmap]
        · intro c hc
          rcases List.mem_cons.mp hc with rfl | hc2
          · refine populateDependencyList_mem_mono f hmono _ _ _ _ hrec _ ?_
            exact hmono _ _ cc u2 hfc _ ((setAdd_mem _ _ _).mpr (Or.inr rfl))
          · exact hmem c hc2

/-- C5: the plugin-tree populator evaluates its cycle guard on the
current node, by the current node's id recurring on the walked-up
`Parent` chain, before expanding children: a repeated current node gets
no children at all; and in the parent's loop every listed child —
repeated or not — is still created with its prefixed id, recorded in
the unique-dependency set, and appended to the parent's children. -/
theorem plugin_cycle_guard_current_node :
    (∀ (fuel : Nat) (currGav : String) (anc : List String) (currId : String)
        (tree : ModuleDepTree) (uds : List String),
      nodeHasLoop anc currGav = true →
      populateDependencyTree (fuel + 1) currGav anc currId tree uds = some ([], uds)) ∧
    (∀ (fuel : Nat) (currGav : String) (anc : List String) (currId : String)
        (tree : ModuleDepTree) (uds : List String) (ns : List GraphNode) (uds' : List String),
      nodeHasLoop anc currGav = false →
      populateDependencyTree (fuel + 1) currGav anc currId tree uds = some (ns, uds') →
      List.map GraphNode.id ns =
        (nodesLookup tree.nodes currId).map (fun c => GavPackageTypeIdentifier ++ c) ∧
      ∀ c ∈ nodesLookup tree.nodes currId, (GavPackageTypeIdentifier ++ c) ∈ uds') := by
  constructor
  · intro fuel currGav anc currId tree uds h
    simp [populateDependencyTree, h]
  · intro fuel currGav anc currId tree uds ns uds' hguard h
    simp only [populateDependencyTree, hguard, Bool.false_eq_true, if_false] at h
    exact populateDependencyList_shape _
      (fun cid u ns1 u' h' x hx =>
        (populateDependencyTree_mem fuel (GavPackageTypeIdentifier ++ cid)
          (currGav :: anc) cid tree u ns1 u' h' x).mpr (Or.inl hx))
      _ _ _ _ h

/-- Witness for C5 on a concrete self-loop `a → a`: the repeated node
was created by its parent, but the guard stops its own expansion. -/
theorem plugin_cycle_guard_current_node_witness :
    populateDependencyTree 2 (GavPackageTypeIdentifier ++ "a")
        [GavPackageTypeIdentifier ++ "a"] "a" ⟨"a", [("a", ["a"])]⟩ [] =
      some ([], []) :=
  plugin_cycle_guard_current_node.1 1 (GavPackageTypeIdentifier ++ "a")
    [GavPackageTypeIdentifier ++ "a"] "a" ⟨"a", [("a", ["a"])]⟩ [] (by decide)

/-! ## Helper lemmas: termination of the populators past an explicit
fuel bound -/

theorem hasLoop_iff (ids : List String) (x : String) :
    hasLoop ids x = true ↔ x ∈ ids := by
  simp [hasLoop, List.any_eq_true, beq_iff_eq]

theorem nodeHasLoop_iff (ids : List String) (x : String) :
    nodeHasLoop ids x = true ↔ x ∈ ids := by
  simp [nodeHasLoop, List.any_eq_true, beq_iff_eq]

theorem getChildren_sub (pm : Multimap) (p : String) (x : String)
    (hx : x ∈ (getChildren pm p).map (fun d => d.id)) : x ∈ transChildIds pm := by
  unfold getChildren at hx
  cases hf : pm.find? (fun e => e.1 == p) with
  | none => rw [hf] at hx; exact absurd hx (by simp)
  | some e =>
    rw [hf] at hx
    have he : e ∈ pm := List.mem_of_find?_eq_some hf
    unfold transChildIds
    exact List.mem_flatMap.mpr ⟨e, he, hx⟩

theorem nodesLookup_sub (tree : ModuleDepTree) (key : String) (c : String)
    (hc : c ∈ nodesLookup tree.nodes key) :
    (GavPackageTypeIdentifier ++ c) ∈ depChildGavs tree := by
  unfold nodesLookup at hc
  cases hf : tree.nodes.find? (fun e => e.1 == key) with
  | none => rw [hf] at hc; exact absurd hc (by simp)
  | some e =>
    rw [hf] at hc
    have he : e ∈ tree.nodes := List.mem_of_find?_eq_some hf
    unfold depChildGavs
    exact List.mem_flatMap.mpr ⟨e, he, List.mem_map.mpr ⟨c, hc, rfl⟩⟩

theorem filter_not_mem_decrease (univ ids ids' : List String) (c : String)
    (hc : c ∈ univ) (hnot : c ∉ ids)
    (hiff : ∀ x, x ∈ ids' ↔ x ∈ ids ∨ x = c) :
    (univ.filter (fun x => x ∉ ids')).length + 1 ≤
      (univ.filter (fun x => x ∉ ids)).length := by
  have hmono : List.Sublist (univ.filter (fun x => x ∉ ids'))
      (univ.filter (fun x => x ∉ ids)) := by
    apply List.monotone_filter_right
    intro a ha
    simp only [decide_eq_true_eq] at ha ⊢
    exact fun hmem => ha ((hiff a).mpr (Or.inl hmem))
  have hcL : c ∈ univ.filter (fun x => x ∉ ids) :=
    List.mem_filter.mpr ⟨hc, by simpa using hnot⟩
  have hcn : c ∉ univ.filter (fun x => x ∉ ids') := by
    intro hmem
    have h2 := (List.mem_filter.mp hmem).2
    simp only [decide_eq_true_eq] at h2
    exact h2 ((hiff c).mpr (Or.inr rfl))
  rcases Nat.lt_or_ge (univ.filter (fun x => x ∉ ids')).length
      (univ.filter (fun x => x ∉ ids)).length with hlt | hge
  · omega
  · have heq : (univ.filter (fun x => x ∉ ids')).length =
        (univ.filter (fun x => x ∉ ids)).length :=
      Nat.le_antisymm hmono.length_le hge
    exact absurd (hmono.eq_of_length heq ▸ hcL) hcn

theorem populateTransitiveList_mono
    (f g : String → List String → Option (Option GraphNode × List String))
    (hfg : ∀ d u r, f d u = some r → g d u = some r) :
    ∀ (cs : List String) (uds : List String) (r : List GraphNode × List String),
      populateTransitiveList f cs uds = some r →
      populateTransitiveList g cs uds = some r := by
  intro cs
  induction cs with
  | nil => intro uds r h; exact h
  | cons c cs ih =>
    intro uds r h
    simp only [populateTransitiveList] at h ⊢
    split at h
    · exact absurd h (by simp)
    · rename_i optN u1 hfc
      split at h
      · exact absurd h (by simp)
      · rename_i rest u2 hrec
        cases h
        simp [hfg c uds _ hfc, ih u1 _ hrec]

theorem populateTransitiveDependencies_mono :
    ∀ (k : Nat) (d : String) (pm : Multimap) (ids uds : List String)
      (r : Option GraphNode × List String),
      populateTransitiveDependencies k d pm ids uds = some r →
      ∀ k', k ≤ k' → populateTransitiveDependencies k' d pm ids uds = some r := by
  intro k
  induction k with
  | zero =>
    intro d pm ids uds r h
    exact absurd h (by simp [populateTransitiveDependencies])
  | succ m ih =>
    intro d pm ids uds r h k' hk
    obtain ⟨m', rfl⟩ : ∃ m', k' = m' + 1 := ⟨k' - 1, by omega⟩
    have hm : m ≤ m' := by omega
    simp only [populateTransitiveDependencies] at h ⊢
    split at h
    · rename_i hloop
      rw [if_pos hloop]
      exact h
    · rename_i hloop
      rw [if_neg hloop]
      split at h
      · exact absurd h (by simp)
      · rename_i children u2 hrec
        cases h
        have hlist := populateTransitiveList_mono _ _
          (fun d' u r' h' => ih d' pm (ids ++ [d]) u r' h' m' hm) _ _ _ hrec
        simp [hlist]

theorem populateTransitiveList_ne_none
    (f : String → List String → Option (Option GraphNode × List String)) :
    ∀ (cs : List String), (∀ c ∈ cs, ∀ u, f c u ≠ none) →
      ∀ uds, populateTransitiveList f cs uds ≠ none := by
  intro cs
  induction cs with
  | nil => intro _ uds; simp [populateTransitiveList]
  | cons c cs ih =>
    intro hf uds
    simp only [populateTransitiveList]
    cases hfc : f c uds with
    | none => exact absurd hfc (hf c (List.mem_cons_self _ _) uds)
    | some p =>
      obtain ⟨optN, u1⟩ := p
      cases hrec : populateTransitiveList f cs u1 with
      | none =>
        exact absurd hrec (ih (fun c' hc' => hf c' (List.mem_cons_of_mem _ hc')) u1)
      | some q =>
        obtain ⟨rest, u2⟩ := q
        simp [hrec]

theorem populateTransitiveDependencies_step (fuel : Nat) (d : String) (pm : Multimap)
    (ids uds : List String) (hloop : hasLoop ids d = false) :
    populateTransitiveDependencies (fuel + 1) d pm ids uds =
      match populateTransitiveList
          (fun childId u => populateTransitiveDependencies fuel childId pm (ids ++ [d]) u)
          ((getChildren pm (GavPackageTypeIdentifier ++ d)).map (fun d => d.id))
          (setAdd uds (GavPackageTypeIdentifier ++ d)) with
      | none => none
      | some (children, uds2) =>
        some (some (GraphNode.node (GavPackageTypeIdentifier ++ d) children), uds2) := by
  simp [populateTransitiveDependencies, hloop]

theorem populateTransitiveDependencies_ne_none (pm : Multimap) :
    ∀ (n : Nat) (d : String) (ids uds : List String),
      ((transChildIds pm).filter (fun x => x ∉ ids ++ [d])).length ≤ n →
      populateTransitiveDependencies (n + 2) d pm ids uds ≠ none := by
  intro n
  induction n using Nat.strong_induction_on with
  | _ n ih =>
    intro d ids uds hmeas
    show populateTransitiveDependencies ((n + 1) + 1) d pm ids uds ≠ none
    by_cases hloop : hasLoop ids d = true
    · simp [populateTransitiveDependencies, hloop]
    · have hlf : hasLoop ids d = false := by simpa using hloop
      rw [populateTransitiveDependencies_step (n + 1) d pm ids uds hlf]
      have hne : populateTransitiveList
          (fun childId u => populateTransitiveDependencies (n + 1) childId pm (ids ++ [d]) u)
          ((getChildren pm (GavPackageTypeIdentifier ++ d)).map (fun d => d.id))
          (setAdd uds (GavPackageTypeIdentifier ++ d)) ≠ none := by
        apply populateTransitiveList_ne_none
        intro c hc u
        by_cases hcl : hasLoop (ids ++ [d]) c = true
        · rw [populateTransitiveDependencies_loop n c pm (ids ++ [d]) u hcl]
          simp
        · have hcmem : c ∈ transChildIds pm := getChildren_sub pm _ c hc
          have hcnot : c ∉ ids ++ [d] := fun hmem => hcl ((hasLoop_iff _ c).mpr hmem)
          have hdec := filter_not_mem_decrease (transChildIds pm) (ids ++ [d])
            ((ids ++ [d]) ++ [c]) c hcmem hcnot (by intro x; simp [List.mem_append]; tauto)
          have hn : 1 ≤ n := by omega
          have hrec := ih (n - 1) (by omega) c (ids ++ [d]) u (by omega)
          have heq : (n - 1) + 2 = n + 1 := by omega
          rw [heq] at hrec
          exact hrec
      cases hres : populateTransitiveList
          (fun childId u => populateTransitiveDependencies (n + 1) childId pm (ids ++ [d]) u)
          ((getChildren pm (GavPackageTypeIdentifier ++ d)).map (fun d => d.id))
          (setAdd uds (GavPackageTypeIdentifier ++ d)) with
      | none => exact absurd hres hne
      | some q =>
        obtain ⟨children, u2⟩ := q
        simp [hres]

theorem populateDependencyList_mono
    (f g : String → List String → Option (List GraphNode × List String))
    (hfg : ∀ cid u r, f cid u = some r → g cid u = some r) :
    ∀ (cs : List String) (uds : List String) (r : List GraphNode × List String),
      populateDependencyList f cs uds = some r →
      populateDependencyList g cs uds = some r := by
  intro cs
  induction cs with
  | nil => intro uds r h; exact h
  | cons childId rest ih =>
    intro uds r h
    simp only [populateDependencyList] at h ⊢
    split at h
    · exact absurd h (by simp)
    · rename_i cc u2 hfc
      split at h
      · exact absurd h (by simp)
      · rename_i ns' u3 hrec
        cases h
        simp [hfg _ _ _ hfc, ih _ _ hrec]

theorem populateDependencyTree_mono :
    ∀ (k : Nat) (currGav : String) (anc : List String) (currId : String)
      (tree : ModuleDepTree) (uds : List String) (r : List GraphNode × List String),
      populateDependencyTree k currGav anc currId tree uds = some r →
      ∀ k', k ≤ k' → populateDependencyTree k' currGav anc currId tree uds = some r := by
  intro k
  induction k with
  | zero =>
    intro currGav anc currId tree uds r h
    exact absurd h (by simp [populateDependencyTree])
  | succ m ih =>
    intro currGav anc currId tree uds r h k' hk
    obtain ⟨m', rfl⟩ : ∃ m', k' = m' + 1 := ⟨k' - 1, by omega⟩
    have hm : m ≤ m' := by omega
    simp only [populateDependencyTree] at h ⊢
    split at h
    · rename_i hloop
      rw [if_pos hloop]
      exact h
    · rename_i hloop
      rw [if_neg hloop]
      exact populateDependencyList_mono _ _
        (fun cid u r' h' =>
          ih (GavPackageTypeIdentifier ++ cid) (currGav :: anc) cid tree u r' h' m' hm)
        _ _ _ h

theorem populateDependencyList_ne_none
    (f : String → List String → Option (List GraphNode × List String)) :
    ∀ (cs : List String), (∀ c ∈ cs, ∀ u, f c u ≠ none) →
      ∀ uds, populateDependencyList f cs uds ≠ none := by
  intro cs
  induction cs with
  | nil => intro _ uds; simp [populateDependencyList]
  | cons childId rest ih =>
    intro hf uds
    simp only [populateDependencyList]
    cases hfc : f childId (setAdd uds (GavPackageTypeIdentifier ++ childId)) with
    | none => exact absurd hfc (hf childId (List.mem_cons_self _ _) _)
    | some p =>
      obtain ⟨cc, u2⟩ := p
      cases hrec : populateDependencyList f rest u2 with
      | none =>
        exact absurd hrec (ih (fun c' hc' => hf c' (List.mem_cons_of_mem _ hc')) u2)
      | some q =>
        obtain ⟨ns', u3⟩ := q
        simp [hrec]

theorem populateDependencyTree_step (fuel : Nat) (currGav : String) (anc : List String)
    (currId : String) (tree : ModuleDepTree) (uds : List String)
    (hloop : nodeHasLoop anc currGav = false) :
    populateDependencyTree (fuel + 1) currGav anc currId tree uds =
      populateDependencyList
        (fun childId u =>
          populateDependencyTree fuel (GavPackageTypeIdentifier ++ childId)
            (currGav :: anc) childId tree u)
        (nodesLookup tree.nodes currId) uds := by
  simp [populateDependencyTree, hloop]

theorem populateDependencyTree_ne_none (tree : ModuleDepTree) :
    ∀ (n : Nat) (currGav : String) (anc : List String) (currId : String) (uds : List String),
      ((depChildGavs tree).filter (fun x => x ∉ currGav :: anc)).length ≤ n →
      populateDependencyTree (n + 2) currGav anc currId tree uds ≠ none := by
  intro n
  induction n using Nat.strong_induction_on with
  | _ n ih =>
    intro currGav anc currId uds hmeas
    show populateDependencyTree ((n + 1) + 1) currGav anc currId tree uds ≠ none
    by_cases hloop : nodeHasLoop anc currGav = true
    · simp [populateDependencyTree, hloop]
    · have hlf : nodeHasLoop anc currGav = false := by simpa using hloop
      rw [populateDependencyTree_step (n + 1) currGav anc currId tree uds hlf]
      apply populateDependencyList_ne_none
      intro c hc u
      by_cases hcl : nodeHasLoop (currGav :: anc) (GavPackageTypeIdentifier ++ c) = true
      · simp [populateDependencyTree, hcl]
      · have hcmem : (GavPackageTypeIdentifier ++ c) ∈ depChildGavs tree :=
          nodesLookup_sub tree currId c hc
        have hcnot : (GavPackageTypeIdentifier ++ c) ∉ currGav :: anc :=
          fun hmem => hcl ((nodeHasLoop_iff _ _).mpr hmem)
        have hdec := filter_not_mem_decrease (depChildGavs tree) (currGav :: anc)
          ((GavPackageTypeIdentifier ++ c) :: currGav :: anc) (GavPackageTypeIdentifier ++ c)
          hcmem hcnot (by intro x; simp [List.mem_cons]; tauto)
        have hn : 1 ≤ n := by omega
        have hrec := ih (n - 1) (by omega) (GavPackageTypeIdentifier ++ c)
          (currGav :: anc) c u (by omega)
        have heq : (n - 1) + 2 = n + 1 := by omega
        rw [heq] at hrec
        exact hrec

/-- C3: given any dependency input, cyclic or not, both tree populators
stabilise: past the explicit fuel bound (distinct ids not yet on the
current path, plus two) the result no longer depends on fuel and is
never a fuel failure, so the unbounded Go recursion terminates with a
finite tree; and the edge re-entering an id already on the current path
is dropped at the point of re-entry instead of being expanded. -/
theorem cycle_construction_terminates :
    (∀ (pm : Multimap) (d : String) (ids uds : List String) (fuel : Nat),
      transBound pm ids d ≤ fuel →
      populateTransitiveDependencies fuel d pm ids uds =
        populateTransitiveDependencies (transBound pm ids d) d pm ids uds ∧
      populateTransitiveDependencies (transBound pm ids d) d pm ids uds ≠ none) ∧
    (∀ (tree : ModuleDepTree) (currGav : String) (anc : List String) (currId : String)
        (uds : List String) (fuel : Nat),
      depBound tree currGav anc ≤ fuel →
      populateDependencyTree fuel currGav anc currId tree uds =
        populateDependencyTree (depBound tree currGav anc) currGav anc currId tree uds ∧
      populateDependencyTree (depBound tree currGav anc) currGav anc currId tree uds ≠ none) ∧
    (∀ (fuel : Nat) (d : String) (pm : Multimap) (ids uds : List String),
      hasLoop ids d = true →
      populateTransitiveDependencies (fuel + 1) d pm ids uds = some (none, uds)) ∧
    (∀ (fuel : Nat) (currGav : String) (anc : List String) (currId : String)
        (tree : ModuleDepTree) (uds : List String),
      nodeHasLoop anc currGav = true →
      populateDependencyTree (fuel + 1) currGav anc currId tree uds = some ([], uds)) := by
  refine ⟨?_, ?_, ?_, ?_⟩
  · intro pm d ids uds fuel hfuel
    have hne := populateTransitiveDependencies_ne_none pm
      ((transChildIds pm).filter (fun x => x ∉ ids ++ [d])).length d ids uds (le_refl _)
    have hb : transBound pm ids d =
        ((transChildIds pm).filter (fun x => x ∉ ids ++ [d])).length + 2 := rfl
    rw [← hb] at hne
    obtain ⟨r, hr⟩ := Option.ne_none_iff_exists'.mp hne
    have hmono := populateTransitiveDependencies_mono _ d pm ids uds r hr fuel hfuel
    refine ⟨?_, hne⟩
    rw [hmono, hr]
  · intro tree currGav anc currId uds fuel hfuel
    have hne := populateDependencyTree_ne_none tree
      ((depChildGavs tree).filter (fun x => x ∉ currGav :: anc)).length currGav anc currId
      uds (le_refl _)
    have hb : depBound tree currGav anc =
        ((depChildGavs tree).filter (fun x => x ∉ currGav :: anc)).length + 2 := rfl
    rw [← hb] at hne
    obtain ⟨r, hr⟩ := Option.ne_none_iff_exists'.mp hne
    have hmono := populateDependencyTree_mono _ currGav anc currId tree uds r hr fuel hfuel
    refine ⟨?_, hne⟩
    rw [hmono, hr]
  · exact populateTransitiveDependencies_loop
  · intro fuel currGav anc currId tree uds h
    simp [populateDependencyTree, h]

/-- Witness for C3 on the concrete two-cycle `a requests b, b requests
a`: construction at the bound succeeds and is fuel-independent. -/
theorem cycle_construction_terminates_witness :
    populateTransitiveDependencies
        (transBound [(GavPackageTypeIdentifier ++ "a", [⟨"b", [["a"]]⟩]),
          (GavPackageTypeIdentifier ++ "b", [⟨"a", [["b"]]⟩])] [] "a") "a"
        [(GavPackageTypeIdentifier ++ "a", [⟨"b", [["a"]]⟩]),
          (GavPackageTypeIdentifier ++ "b", [⟨"a", [["b"]]⟩])] [] [] ≠ none :=
  (cycle_construction_terminates.1
    [(GavPackageTypeIdentifier ++ "a", [⟨"b", [["a"]]⟩]),
      (GavPackageTypeIdentifier ++ "b", [⟨"a", [["b"]]⟩])] "a" [] []
    (transBound [(GavPackageTypeIdentifier ++ "a", [⟨"b", [["a"]]⟩]),
      (GavPackageTypeIdentifier ++ "b", [⟨"a", [["b"]]⟩])] [] "a") (le_refl _)).2
